import Mathlib

/-!
Verification of the devops-rag-api retrieval-augmented extraction pipeline.

Python strings are modelled as `List Char`; `str.strip` becomes `pstrip`,
`str.split("\n\n")` becomes `splitPar`, `str.splitlines()` becomes
`splitlines`, `"sep".join(...)` becomes `joinSep`.  External collaborators
(the Ollama embedding endpoint, the Chroma vector store, the generative
model) are opaque oracles; a call that raises is modelled as `none`/a flag.
The functions `is_section_header`, `split_sections`, `chunk_paragraphs`,
`clear_collection`, `embed_text` and the bodies of `main` (embed.py) and
`query` (app.py) are translated clause for clause from the source.
-/

namespace RagApi

/-- Whitespace as recognised by Python's `str.strip` (ASCII range). -/
def isSpace (c : Char) : Bool :=
  c == ' ' || c == '\t' || c == '\n' || c == '\r' || c == '\x0b' || c == '\x0c'

/-- `s.lstrip()` -/
def lstrip (s : List Char) : List Char := s.dropWhile isSpace

/-- `s.rstrip()` -/
def rstrip (s : List Char) : List Char := (s.reverse.dropWhile isSpace).reverse

/-- `s.strip()` -/
def pstrip (s : List Char) : List Char := rstrip (lstrip s)

/-- `text.split("\n\n")` with Python semantics: leftmost, non-overlapping,
keeps empty pieces. -/
def splitPar : List Char → List (List Char)
  | [] => [[]]
  | '\n' :: '\n' :: rest => [] :: splitPar rest
  | c :: rest =>
    match splitPar rest with
    | [] => [[c]]
    | h :: t => (c :: h) :: t

/-- `"sep".join(pieces)` -/
def joinSep (sep : List Char) : List (List Char) → List Char
  | [] => []
  | [x] => x
  | x :: y :: ys => x ++ sep ++ joinSep sep (y :: ys)

/-- The paragraph separator `"\n\n"` used by `chunk_paragraphs`. -/
def parSep : List Char := "\n\n".toList

/-- `"\n\n".join(pieces)` -/
def joinPar (ls : List (List Char)) : List Char := joinSep parSep ls

/-- `"\n".join(pieces)` -/
def joinNL (ls : List (List Char)) : List Char := joinSep "\n".toList ls

/-- `[p.strip() for p in text.strip().split("\n\n") if p.strip()]`
(first two lines of `chunk_paragraphs`). -/
def paragraphs (text : List Char) : List (List Char) :=
  ((splitPar (pstrip text)).map pstrip).filter (fun p => !p.isEmpty)

/-- The packing loop of `chunk_paragraphs` (embed.py lines 68-85):
greedily packs consecutive paragraphs, closing the current chunk when the
running length plus the new paragraph (and the 2-character join overhead)
would exceed `maxC`. -/
def chunkLoop (maxC : Nat) : List (List Char) → List (List Char) → Nat → List (List Char)
  | [], cur, _ => if cur.isEmpty then [] else [pstrip (joinPar cur)]
  | p :: ps, cur, clen =>
    let added := p.length + (if cur.isEmpty then 0 else 2)
    if !cur.isEmpty && decide (maxC < clen + added) then
      pstrip (joinPar cur) :: chunkLoop maxC ps [p] p.length
    else
      chunkLoop maxC ps (cur ++ [p]) (clen + added)

/-- `chunk_paragraphs(text, max_chars)` from embed.py. -/
def chunk_paragraphs (text : List Char) (maxC : Nat) : List (List Char) :=
  chunkLoop maxC (paragraphs text) [] 0

/-- Python `s.isupper()` restricted to the ASCII letters that occur in the
source document: at least one cased character and no lower-case character. -/
def pyIsUpper (s : List Char) : Bool :=
  s.any (fun c => c.isUpper || c.isLower) && s.all (fun c => !c.isLower)

/-- `is_section_header(line)` from embed.py. -/
def is_section_header (line : List Char) : Bool :=
  let s := pstrip line
  !s.isEmpty && (pyIsUpper s && decide (3 ≤ s.length))

/-- `text.replace("\r\n", "\n")` (leftmost, non-overlapping). -/
def replaceCRLF : List Char → List Char
  | [] => []
  | '\r' :: '\n' :: rest => '\n' :: replaceCRLF rest
  | c :: rest => c :: replaceCRLF rest

/-- Helper for `splitlines`: cut at `\r\n`, `\r` or `\n`. -/
def splitLinesAux : List Char → List (List Char)
  | [] => [[]]
  | '\r' :: '\n' :: rest => [] :: splitLinesAux rest
  | '\r' :: rest => [] :: splitLinesAux rest
  | '\n' :: rest => [] :: splitLinesAux rest
  | c :: rest =>
    match splitLinesAux rest with
    | [] => [[c]]
    | h :: t => (c :: h) :: t

/-- Python `s.splitlines()`: a trailing line break terminates the last line
rather than opening an empty one, and `""` has no lines. -/
def splitlines (s : List Char) : List (List Char) :=
  if s.isEmpty then []
  else
    let ps := splitLinesAux s
    if ps.getLast? = some [] then ps.dropLast else ps

/-- The `flush()` closure of `split_sections`: emit `(section, body)` only
when a section is open and its buffer is non-empty. -/
def flushSec : Option (List Char) → List (List Char) →
    List (List Char × List Char)
  | some c, buf => if buf.isEmpty then [] else [(c, pstrip (joinNL buf))]
  | none, _ => []

/-- The line scan of `split_sections` (embed.py lines 44-56). -/
def splitSecLoop : List (List Char) → Option (List Char) → List (List Char) →
    List (List Char × List Char)
  | [], cur, buf => flushSec cur buf
  | line :: rest, cur, buf =>
    if is_section_header line then
      flushSec cur buf ++ splitSecLoop rest (some (pstrip line)) [pstrip line]
    else
      match cur with
      | none => splitSecLoop rest (some "UNKNOWN".toList) [line]
      | some c => splitSecLoop rest (some c) (buf ++ [line])

/-- `split_sections(text)` from embed.py. -/
def split_sections (text : List Char) : List (List Char × List Char) :=
  splitSecLoop (splitlines (pstrip (replaceCRLF text))) none []

/-- Chunk metadata written by `main` in embed.py (lines 127-134). -/
structure Meta where
  source : List Char
  chunk : Nat
  sectionName : List Char
  section_part : Nat
deriving DecidableEq

/-- The chunk-building loop of `main` (embed.py lines 122-135): a global
`chunk_idx` counter across sections and a per-section `part_idx`. -/
def buildChunks (maxC : Nat) : List (List Char × List Char) → Nat → List (List Char × Meta)
  | [], _ => []
  | (name, stext) :: rest, idx =>
    let scs := chunk_paragraphs stext maxC
    (scs.enum.map (fun pc => (pc.2, ⟨"resume.txt".toList, idx + pc.1, name, pc.1⟩)))
      ++ buildChunks maxC rest (idx + scs.length)

/-- The chunk texts `main` produces for a raw document. -/
def chunksOf (maxC : Nat) (raw : List Char) : List (List Char) :=
  (buildChunks maxC (split_sections raw) 0).map (·.1)

/-- Oracle for the external collaborators of embed.py: whether
`collection.get` and `collection.delete` succeed, and the vector (if any)
the Ollama embeddings endpoint returns for a text (`none` = the call
raised). -/
structure Oracle where
  getOk : Bool
  deleteOk : Bool
  embed : List Char → Option (List Int)

/-- Observable calls `main` makes against the collaborators. -/
inductive Ev where
  | getOrCreateCollection
  | collGet
  | collDeleteIds (ids : List (List Char))
  | deleteCollection
  | embedCall (text : List Char)
  | addCall (ids : List (List Char)) (docs : List (List Char))
deriving DecidableEq

/-- Outcome of a `main` run. -/
inductive MainResult where
  | fileMissing
  | embedFailed
  | ok (n : Nat)
deriving DecidableEq

/-- `embed_text` from embed.py: Python raises on a falsy embedding, i.e.
both on a missing vector and on an empty one. -/
def embed_text (o : Oracle) (text : List Char) : Option (List Int) :=
  match o.embed text with
  | some v => if v.isEmpty then none else some v
  | none => none

/-- `clear_collection` from embed.py: `get` then `delete` inside a
`try/except Exception: pass`, so a raising call leaves the state as it was
and the function always returns. Returns the new stored-id state and the
calls made. -/
def clear_collection (o : Oracle) (st : List (List Char)) :
    List (List Char) × List Ev :=
  if o.getOk then
    if st.isEmpty then (st, [Ev.collGet])
    else if o.deleteOk then ([], [Ev.collGet, Ev.collDeleteIds st])
    else (st, [Ev.collGet, Ev.collDeleteIds st])
  else (st, [Ev.collGet])

/-- The list comprehension `[embed_text(ollama, c) for c in chunks]`:
left to right, raising (and stopping) at the first failed embedding. -/
def embedAll (o : Oracle) : List (List Char) → Option (List (List Int)) × List Ev
  | [] => (some [], [])
  | c :: cs =>
    match embed_text o c with
    | none => (none, [Ev.embedCall c])
    | some v =>
      ((embedAll o cs).1.map (fun vs => v :: vs), Ev.embedCall c :: (embedAll o cs).2)

/-- `f"resume-{i:04d}"` -/
def mkId (i : Nat) : List Char :=
  let ds := Nat.toDigits 10 i
  "resume-".toList ++ List.replicate (4 - ds.length) '0' ++ ds

/-- `main` from embed.py over the oracles: missing file raises
`FileNotFoundError`; otherwise split into sections, build chunks, get or
create the collection, clear it in place, embed every chunk, then perform
the single `collection.add` (modelled as appending the new ids; the add
call itself is the opaque store's and is modelled as accepting). Returns
the call trace, the outcome, and the final stored-id state. -/
def mainRun (o : Oracle) (maxC : Nat) (file : Option (List Char))
    (st : List (List Char)) : List Ev × MainResult × List (List Char) :=
  match file with
  | none => ([], MainResult.fileMissing, st)
  | some raw =>
    let chunks := chunksOf maxC raw
    let cleared := clear_collection o st
    let ids := (List.range chunks.length).map mkId
    let embs := embedAll o chunks
    match embs.1 with
    | none =>
      (Ev.getOrCreateCollection :: (cleared.2 ++ embs.2), MainResult.embedFailed, cleared.1)
    | some _ =>
      (Ev.getOrCreateCollection :: (cleared.2 ++ embs.2 ++ [Ev.addCall ids chunks]),
        MainResult.ok chunks.length, cleared.1 ++ ids)

/-! ## The query path (app.py) -/

/-- The sentinel answer. -/
def NOT_FOUND : List Char := "NOT_FOUND".toList

/-- The context separator `"\n\n---\n\n"` of app.py line 54. -/
def ctxSep : List Char := "\n\n---\n\n".toList

/-- `context = "\n\n---\n\n".join(docs) if docs else ""` -/
def contextOf (docs : List (List Char)) : List Char :=
  if docs.isEmpty then [] else joinSep ctxSep docs

/-- `s.lower()` (ASCII). -/
def pyLower (s : List Char) : List Char := s.map Char.toLower

/-- app.py lines 95-98: strip the raw response, then strip one matching
pair of double quotes (when present and length allows) and re-strip. -/
def postprocess (raw : List Char) : List Char :=
  let a := pstrip raw
  if a.head? = some '\"' ∧ a.getLast? = some '\"' ∧ 2 ≤ a.length then
    pstrip ((a.drop 1).dropLast)
  else a

/-- The prompt-echo guard markers of app.py line 101. -/
def bad_markers : List (List Char) :=
  ["rules:".toList, "context:".toList, "question:".toList,
    "information extraction system".toList]

/-- The answer computation of `query` (app.py lines 53-108), parameterised
by the retrieved documents and the generative collaborator's raw response
(`none` = missing `response` field). Returns the answer and whether
`ollama.generate` was invoked. -/
def queryModel (docs : List (List Char)) (resp : Option (List Char)) :
    List Char × Bool :=
  if (pstrip (contextOf docs)).isEmpty then (NOT_FOUND, false)
  else
    let answer := postprocess (resp.getD [])
    let answer :=
      if bad_markers.any (fun m => decide (m <:+: pyLower answer)) then NOT_FOUND
      else answer
    let answer := if answer.isEmpty then NOT_FOUND else answer
    (answer, true)

/-! ## Basic facts about the string primitives -/

theorem dropWhile_eq_self {α : Type} {p : α → Bool} {l : List α}
    (h : ∀ c ∈ l.head?, p c = false) : l.dropWhile p = l := by
  cases l with
  | nil => rfl
  | cons a t =>
    have ha : p a = false := h a (by simp)
    simp [List.dropWhile_cons, ha]

theorem head?_dropWhile_false {α : Type} (p : α → Bool) (l : List α) :
    ∀ c ∈ (l.dropWhile p).head?, p c = false := by
  induction l with
  | nil => intro c hc; simp at hc
  | cons a t ih =>
    by_cases h : p a = true
    · simpa [List.dropWhile_cons, h] using ih
    · intro c hc
      rw [Bool.not_eq_true] at h
      simp [List.dropWhile_cons, h] at hc
      rw [← hc]; exact h

theorem lstrip_eq_self {s : List Char} (h : ∀ c ∈ s.head?, isSpace c = false) :
    lstrip s = s :=
  dropWhile_eq_self h

theorem head?_lstrip (s : List Char) : ∀ c ∈ (lstrip s).head?, isSpace c = false :=
  head?_dropWhile_false isSpace s

theorem rstrip_eq_self {s : List Char} (h : ∀ c ∈ s.getLast?, isSpace c = false) :
    rstrip s = s := by
  unfold rstrip
  rw [dropWhile_eq_self (by rw [List.head?_reverse]; exact h), List.reverse_reverse]

theorem getLast?_rstrip (s : List Char) :
    ∀ c ∈ (rstrip s).getLast?, isSpace c = false := by
  unfold rstrip
  rw [List.getLast?_reverse]
  exact head?_dropWhile_false isSpace s.reverse

theorem rstrip_prefix (s : List Char) : rstrip s <+: s := by
  have h : s.reverse.dropWhile isSpace <:+ s.reverse := List.dropWhile_suffix isSpace
  have := List.reverse_prefix.mpr h
  rwa [List.reverse_reverse] at this

theorem head?_pstrip (s : List Char) : ∀ c ∈ (pstrip s).head?, isSpace c = false := by
  intro c hc
  obtain ⟨u, hu⟩ := rstrip_prefix (lstrip s)
  rcases e : pstrip s with _ | ⟨a, t⟩
  · rw [e] at hc; simp at hc
  · rw [e] at hc
    simp only [List.head?_cons, Option.mem_def, Option.some.injEq] at hc
    have hls : (lstrip s).head? = some a := by
      have : pstrip s ++ u = lstrip s := hu
      rw [← this, e, List.head?_append_of_ne_nil _ (by simp)]
      simp
    have := head?_lstrip s a (by rw [hls]; rfl)
    rwa [hc] at this

theorem getLast?_pstrip (s : List Char) :
    ∀ c ∈ (pstrip s).getLast?, isSpace c = false :=
  getLast?_rstrip (lstrip s)

theorem pstrip_eq_self {s : List Char} (h1 : ∀ c ∈ s.head?, isSpace c = false)
    (h2 : ∀ c ∈ s.getLast?, isSpace c = false) : pstrip s = s := by
  unfold pstrip
  rw [lstrip_eq_self h1, rstrip_eq_self h2]

theorem pstrip_idem (s : List Char) : pstrip (pstrip s) = pstrip s :=
  pstrip_eq_self (head?_pstrip s) (getLast?_pstrip s)

/-- A well-formed paragraph: non-empty and already stripped. -/
def GoodP (p : List Char) : Prop := p ≠ [] ∧ pstrip p = p

theorem GoodP.head {p : List Char} (h : GoodP p) :
    ∀ c ∈ p.head?, isSpace c = false := by
  intro c hc
  exact head?_pstrip p c (by rw [h.2]; exact hc)

theorem GoodP.last {p : List Char} (h : GoodP p) :
    ∀ c ∈ p.getLast?, isSpace c = false := by
  intro c hc
  exact getLast?_pstrip p c (by rw [h.2]; exact hc)

theorem paragraphs_good (text : List Char) : ∀ p ∈ paragraphs text, GoodP p := by
  intro p hp
  unfold paragraphs at hp
  rw [List.mem_filter] at hp
  obtain ⟨hmem, hne⟩ := hp
  rw [List.mem_map] at hmem
  obtain ⟨q, -, rfl⟩ := hmem
  refine ⟨?_, pstrip_idem q⟩
  simpa using hne

/-! ## Facts about `joinSep` -/

theorem joinSep_cons (sep x : List Char) {xs : List (List Char)} (h : xs ≠ []) :
    joinSep sep (x :: xs) = x ++ sep ++ joinSep sep xs := by
  cases xs with
  | nil => exact absurd rfl h
  | cons y ys => rfl

theorem joinSep_ne_nil (sep : List Char) {l : List (List Char)} (hl : l ≠ [])
    (h : ∀ p ∈ l, p ≠ []) : joinSep sep l ≠ [] := by
  cases l with
  | nil => exact absurd rfl hl
  | cons x xs =>
    cases xs with
    | nil => exact h x (by simp)
    | cons y ys =>
      rw [joinSep_cons sep x (by simp)]
      simp only [ne_eq, List.append_eq_nil, not_and]
      intro hx
      exact absurd hx.1 (h x (by simp))

theorem joinSep_append (sep : List Char) {a b : List (List Char)} (ha : a ≠ [])
    (hb : b ≠ []) :
    joinSep sep (a ++ b) = joinSep sep a ++ sep ++ joinSep sep b := by
  induction a with
  | nil => exact absurd rfl ha
  | cons x a' ih =>
    cases a' with
    | nil =>
      rw [List.singleton_append, joinSep_cons sep x hb]
      rfl
    | cons y a'' =>
      have hcons : (y :: a'') ++ b ≠ [] := by simp
      rw [List.cons_append, joinSep_cons sep x hcons, ih (by simp),
        joinSep_cons sep x (by simp)]
      simp [List.append_assoc]

theorem joinPar_cons (x : List Char) {xs : List (List Char)} (h : xs ≠ []) :
    joinPar (x :: xs) = x ++ parSep ++ joinPar xs :=
  joinSep_cons parSep x h

theorem joinPar_append {a b : List (List Char)} (ha : a ≠ []) (hb : b ≠ []) :
    joinPar (a ++ b) = joinPar a ++ parSep ++ joinPar b :=
  joinSep_append parSep ha hb

theorem head?_joinSep (sep : List Char) {x : List Char} (xs : List (List Char))
    (hx : x ≠ []) : (joinSep sep (x :: xs)).head? = x.head? := by
  cases xs with
  | nil => rfl
  | cons y ys =>
    rw [joinSep_cons sep x (by simp), List.append_assoc,
      List.head?_append_of_ne_nil _ hx]

theorem getLast?_joinSep_mem (sep : List Char) :
    ∀ {l : List (List Char)}, l ≠ [] → (∀ p ∈ l, p ≠ []) →
      ∀ c ∈ (joinSep sep l).getLast?, ∃ q ∈ l, c ∈ q.getLast? := by
  intro l
  induction l with
  | nil => intro h; exact absurd rfl h
  | cons x xs ih =>
    intro _ hne c hc
    cases xs with
    | nil => exact ⟨x, by simp, hc⟩
    | cons y ys =>
      rw [joinSep_cons sep x (by simp),
        List.getLast?_append_of_ne_nil _
          (joinSep_ne_nil sep (by simp) (fun p hp => hne p (List.mem_cons_of_mem x hp)))]
        at hc
      obtain ⟨q, hq, hcq⟩ :=
        ih (by simp) (fun p hp => hne p (List.mem_cons_of_mem x hp)) c hc
      exact ⟨q, List.mem_cons_of_mem x hq, hcq⟩

theorem pstrip_joinPar {l : List (List Char)} (h : ∀ p ∈ l, GoodP p) :
    pstrip (joinPar l) = joinPar l := by
  cases l with
  | nil => rfl
  | cons x xs =>
    apply pstrip_eq_self
    · intro c hc
      rw [joinPar, head?_joinSep parSep xs (h x (by simp)).1] at hc
      exact (h x (by simp)).head c hc
    · intro c hc
      obtain ⟨q, hq, hcq⟩ :=
        getLast?_joinSep_mem parSep (l := x :: xs) (by simp)
          (fun p hp => (h p hp).1) c hc
      exact (h q hq).last c hcq

/-! ## Facts about the chunk-packing loop -/

theorem chunkLoop_nil (maxC : Nat) (cur : List (List Char)) (clen : Nat) :
    chunkLoop maxC [] cur clen = if cur.isEmpty then [] else [pstrip (joinPar cur)] :=
  rfl

theorem chunkLoop_cons (maxC : Nat) (p : List Char) (ps cur : List (List Char))
    (clen : Nat) :
    chunkLoop maxC (p :: ps) cur clen =
      if !cur.isEmpty && decide (maxC < clen + (p.length + (if cur.isEmpty then 0 else 2))) then
        pstrip (joinPar cur) :: chunkLoop maxC ps [p] p.length
      else
        chunkLoop maxC ps (cur ++ [p]) (clen + (p.length + (if cur.isEmpty then 0 else 2))) :=
  rfl

theorem chunkLoop_ne_nil (maxC : Nat) :
    ∀ (ps cur : List (List Char)) (clen : Nat), cur ≠ [] →
      chunkLoop maxC ps cur clen ≠ [] := by
  intro ps
  induction ps with
  | nil =>
    intro cur clen h
    rw [chunkLoop_nil, if_neg (by simpa using h)]
    simp
  | cons p ps ih =>
    intro cur clen h
    rw [chunkLoop_cons]
    by_cases hcond :
        (!cur.isEmpty && decide (maxC < clen + (p.length + (if cur.isEmpty then 0 else 2)))) = true
    · rw [if_pos hcond]; simp
    · rw [if_neg hcond]; exact ih _ _ (by simp)

theorem chunkLoop_join (maxC : Nat) :
    ∀ (ps cur : List (List Char)) (clen : Nat),
      (∀ p ∈ ps, GoodP p) → (∀ p ∈ cur, GoodP p) →
      joinPar (chunkLoop maxC ps cur clen) = joinPar (cur ++ ps) := by
  intro ps
  induction ps with
  | nil =>
    intro cur clen _ hcur
    by_cases h : cur = []
    · subst h; rfl
    · rw [chunkLoop_nil, if_neg (by simpa using h), List.append_nil]
      show joinPar [pstrip (joinPar cur)] = joinPar cur
      rw [pstrip_joinPar hcur]
      rfl
  | cons p ps ih =>
    intro cur clen hps hcur
    have hp : GoodP p := hps p (by simp)
    have hps' : ∀ q ∈ ps, GoodP q := fun q hq => hps q (by simp [hq])
    rw [chunkLoop_cons]
    by_cases hcond :
        (!cur.isEmpty && decide (maxC < clen + (p.length + (if cur.isEmpty then 0 else 2)))) = true
    · rw [if_pos hcond]
      have hcur_ne : cur ≠ [] := by
        rcases Bool.and_eq_true .. |>.mp hcond with ⟨h1, -⟩
        simpa using h1
      have htail : chunkLoop maxC ps [p] p.length ≠ [] :=
        chunkLoop_ne_nil maxC ps [p] p.length (by simp)
      rw [joinPar, joinSep_cons parSep _ htail]
      have hsingle : ∀ q ∈ [p], GoodP q := by
        intro q hq; rw [List.mem_singleton] at hq; rw [hq]; exact hp
      have hrec := ih [p] p.length hps' hsingle
      rw [List.singleton_append] at hrec
      calc pstrip (joinPar cur) ++ parSep ++ joinPar (chunkLoop maxC ps [p] p.length)
          = joinPar cur ++ parSep ++ joinPar (p :: ps) := by
            rw [pstrip_joinPar hcur, hrec]
        _ = joinPar (cur ++ p :: ps) :=
            (joinPar_append hcur_ne (by simp : (p :: ps : List (List Char)) ≠ [])).symm
    · rw [if_neg hcond]
      have hcur' : ∀ q ∈ cur ++ [p], GoodP q := by
        intro q hq
        rcases List.mem_append.mp hq with h | h
        · exact hcur q h
        · rw [List.mem_singleton] at h; rw [h]; exact hp
      have := ih (cur ++ [p]) (clen + (p.length + (if cur.isEmpty then 0 else 2))) hps' hcur'
      rw [this, List.append_assoc, List.singleton_append]

theorem buildChunks_mem (maxC : Nat) :
    ∀ (secs : List (List Char × List Char)) (idx : Nat) (c : List Char) (m : Meta),
      (c, m) ∈ buildChunks maxC secs idx →
      ∃ stext, (m.sectionName, stext) ∈ secs ∧ c ∈ chunk_paragraphs stext maxC := by
  intro secs
  induction secs with
  | nil => intro idx c m h; simp [buildChunks] at h
  | cons s rest ih =>
    intro idx c m h
    obtain ⟨name, stext⟩ := s
    simp only [buildChunks, List.mem_append] at h
    rcases h with h | h
    · rw [List.mem_map] at h
      obtain ⟨pc, hpc, heq⟩ := h
      have hc : c = pc.2 := by
        have := congrArg Prod.fst heq; simpa using this.symm
      have hm : m.sectionName = name := by
        have := congrArg Prod.snd heq
        simp only at this
        rw [← this]
      have hmem : pc.2 ∈ chunk_paragraphs stext maxC := by
        have : pc.2 ∈ (chunk_paragraphs stext maxC).enum.map Prod.snd :=
          List.mem_map_of_mem Prod.snd hpc
        rwa [List.enum_map_snd] at this
      exact ⟨stext, by rw [hm]; exact List.mem_cons_self _ _, by rw [hc]; exact hmem⟩
    · obtain ⟨st2, hmem, hc⟩ := ih _ c m h
      exact ⟨st2, List.mem_cons_of_mem _ hmem, hc⟩

/-- Claim C1: chunking is lossless.  Joining the chunks `chunk_paragraphs`
returns, in order, with the paragraph separator `"\n\n"` equals joining the
section's trimmed non-empty paragraphs with the same separator; and every
chunk `main` builds comes from `chunk_paragraphs` applied to the text of
the single section recorded in its metadata, so no chunk contains text of
two different sections. -/
theorem c1_chunking_lossless :
    (∀ (text : List Char) (maxC : Nat),
      joinPar (chunk_paragraphs text maxC) = joinPar (paragraphs text)) ∧
    (∀ (maxC : Nat) (secs : List (List Char × List Char)) (c : List Char) (m : Meta),
      (c, m) ∈ buildChunks maxC secs 0 →
      ∃ stext, (m.sectionName, stext) ∈ secs ∧ c ∈ chunk_paragraphs stext maxC) := by
  constructor
  · intro text maxC
    unfold chunk_paragraphs
    have := chunkLoop_join maxC (paragraphs text) [] 0 (paragraphs_good text) (by simp)
    simpa using this
  · intro maxC secs c m h
    exact buildChunks_mem maxC secs 0 c m h

/-- Witness for C1: instantiates the metadata clause on a one-section
document. -/
theorem c1_witness :
    ∃ stext,
      (("SKILLS".toList : List Char), stext) ∈
          [(("SKILLS".toList : List Char), ("SKILLS\nPython".toList : List Char))] ∧
        "SKILLS\nPython".toList ∈ chunk_paragraphs stext 900 :=
  c1_chunking_lossless.2 900 [("SKILLS".toList, "SKILLS\nPython".toList)]
    "SKILLS\nPython".toList ⟨"resume.txt".toList, 0, "SKILLS".toList, 0⟩ (by decide)

/-! ## Chunk size bounds -/

theorem closedChunk_cases (maxC : Nat) {cur : List (List Char)} {clen : Nat}
    (hcur : ∀ p ∈ cur, GoodP p) (hclen : clen = (joinPar cur).length)
    (hsing : maxC < clen → ∃ p, cur = [p]) :
    (pstrip (joinPar cur)).length ≤ maxC ∨
      (pstrip (joinPar cur) ∈ cur ∧ maxC < (pstrip (joinPar cur)).length) := by
  rw [pstrip_joinPar hcur]
  by_cases hlt : maxC < clen
  · obtain ⟨p, rfl⟩ := hsing hlt
    right
    have hjp : joinPar [p] = p := rfl
    rw [hjp]
    rw [hjp] at hclen
    exact ⟨by simp, by omega⟩
  · left
    omega

theorem chunkLoop_size (maxC : Nat) :
    ∀ (ps cur : List (List Char)) (clen : Nat),
      (∀ p ∈ ps, GoodP p) → (∀ p ∈ cur, GoodP p) →
      clen = (joinPar cur).length →
      (maxC < clen → ∃ p, cur = [p]) →
      ∀ c ∈ chunkLoop maxC ps cur clen,
        c.length ≤ maxC ∨ ((c ∈ cur ∨ c ∈ ps) ∧ maxC < c.length) := by
  intro ps
  induction ps with
  | nil =>
    intro cur clen _ hcur hclen hsing c hc
    rw [chunkLoop_nil] at hc
    by_cases h : cur = []
    · subst h; simp at hc
    · rw [if_neg (by simpa using h), List.mem_singleton] at hc
      subst hc
      rcases closedChunk_cases maxC hcur hclen hsing with h | ⟨hm, hl⟩
      · exact Or.inl h
      · exact Or.inr ⟨Or.inl hm, hl⟩
  | cons p ps ih =>
    intro cur clen hps hcur hclen hsing c hc
    have hp' : GoodP p := hps p (by simp)
    have hps' : ∀ q ∈ ps, GoodP q := fun q hq => hps q (List.mem_cons_of_mem p hq)
    have hsingle : ∀ q ∈ [p], GoodP q := by
      intro q hq; rw [List.mem_singleton] at hq; rw [hq]; exact hp'
    rw [chunkLoop_cons] at hc
    by_cases hcond :
        (!cur.isEmpty && decide (maxC < clen + (p.length + (if cur.isEmpty then 0 else 2)))) = true
    · rw [if_pos hcond] at hc
      rcases List.mem_cons.mp hc with hc | hc
      · subst hc
        rcases closedChunk_cases maxC hcur hclen hsing with h | ⟨hm, hl⟩
        · exact Or.inl h
        · exact Or.inr ⟨Or.inl hm, hl⟩
      · rcases ih [p] p.length hps' hsingle rfl (fun _ => ⟨p, rfl⟩) c hc with h | ⟨hm, hl⟩
        · exact Or.inl h
        · refine Or.inr ⟨Or.inr ?_, hl⟩
          rcases hm with hm | hm
          · rw [List.mem_singleton] at hm; rw [hm]; exact List.mem_cons_self p ps
          · exact List.mem_cons_of_mem p hm
    · rw [if_neg hcond] at hc
      by_cases hcure : cur = []
      · subst hcure
        have hclen0 : clen = 0 := by rw [hclen]; rfl
        subst hclen0
        have hc' : c ∈ chunkLoop maxC ps [p] p.length := by simpa using hc
        rcases ih [p] p.length hps' hsingle rfl (fun _ => ⟨p, rfl⟩) c hc' with h | ⟨hm, hl⟩
        · exact Or.inl h
        · refine Or.inr ⟨Or.inr ?_, hl⟩
          rcases hm with hm | hm
          · rw [List.mem_singleton] at hm; rw [hm]; exact List.mem_cons_self p ps
          · exact List.mem_cons_of_mem p hm
      · have hemp : cur.isEmpty = false := by simpa using hcure
        rw [hemp] at hc hcond
        simp only [Bool.not_false, Bool.true_and, if_false,
          decide_eq_true_eq] at hc hcond
        have hcur' : ∀ q ∈ cur ++ [p], GoodP q := by
          intro q hq
          rcases List.mem_append.mp hq with h | h
          · exact hcur q h
          · rw [List.mem_singleton] at h; rw [h]; exact hp'
        have hlen' : clen + (p.length + 2) = (joinPar (cur ++ [p])).length := by
          rw [joinPar_append hcure (by simp : ([p] : List (List Char)) ≠ [])]
          have hjp : joinPar [p] = p := rfl
          have hps2 : parSep.length = 2 := rfl
          rw [hjp]
          simp only [List.length_append, hps2]
          omega
        have hsing' : maxC < clen + (p.length + 2) → ∃ q, cur ++ [p] = [q] :=
          fun h => absurd h hcond
        rcases ih (cur ++ [p]) (clen + (p.length + 2)) hps' hcur' hlen' hsing' c hc
          with h | ⟨hm, hl⟩
        · exact Or.inl h
        · refine Or.inr ⟨?_, hl⟩
          rcases hm with hm | hm
          · rcases List.mem_append.mp hm with h2 | h2
            · exact Or.inl h2
            · rw [List.mem_singleton] at h2; rw [h2]
              exact Or.inr (List.mem_cons_self p ps)
          · exact Or.inr (List.mem_cons_of_mem p hm)

theorem chunkLoop_singleton_oversized (maxC : Nat) {q : List Char} (hq : GoodP q)
    (hlt : maxC < q.length) :
    ∀ (ps : List (List Char)) (clen : Nat), q.length ≤ clen →
      q ∈ chunkLoop maxC ps [q] clen := by
  intro ps
  induction ps with
  | nil =>
    intro clen _
    rw [chunkLoop_nil, if_neg (by simp)]
    have hjq : joinPar [q] = q := rfl
    rw [hjq, hq.2]
    simp
  | cons p ps _ =>
    intro clen hle
    rw [chunkLoop_cons, if_pos]
    · have hjq : joinPar [q] = q := rfl
      rw [hjq, hq.2]
      exact List.mem_cons_self q _
    · simp only [List.isEmpty_cons, Bool.not_false, Bool.true_and, if_false,
        decide_eq_true_eq]
      omega

theorem chunkLoop_oversized_mem (maxC : Nat) :
    ∀ (ps : List (List Char)), (∀ x ∈ ps, GoodP x) →
      ∀ (cur : List (List Char)) (clen : Nat) (p : List Char),
        p ∈ ps → maxC < p.length → p ∈ chunkLoop maxC ps cur clen := by
  intro ps
  induction ps with
  | nil => intro _ cur clen p hp; simp at hp
  | cons x ps ih =>
    intro hgood cur clen p hp hlt
    have hx : GoodP x := hgood x (by simp)
    have hgood' : ∀ y ∈ ps, GoodP y := fun y hy => hgood y (List.mem_cons_of_mem x hy)
    rw [chunkLoop_cons]
    rcases List.mem_cons.mp hp with rfl | hp'
    · by_cases hcure : cur = []
      · subst hcure
        rw [if_neg (by simp)]
        have : ([] : List (List Char)) ++ [p] = [p] := rfl
        rw [this]
        exact chunkLoop_singleton_oversized maxC hx hlt ps _ (by simp)
      · have hemp : cur.isEmpty = false := by simpa using hcure
        rw [if_pos]
        · exact List.mem_cons_of_mem _
            (chunkLoop_singleton_oversized maxC hx hlt ps p.length (Nat.le_refl _))
        · simp only [hemp, Bool.not_false, Bool.true_and, if_false, decide_eq_true_eq]
          omega
    · by_cases hcond :
          (!cur.isEmpty && decide (maxC < clen + (x.length + (if cur.isEmpty then 0 else 2)))) = true
      · rw [if_pos hcond]
        exact List.mem_cons_of_mem _ (ih hgood' [x] x.length p hp' hlt)
      · rw [if_neg hcond]
        exact ih hgood' (cur ++ [x]) _ p hp' hlt

/-- Claim C2: every chunk `chunk_paragraphs` returns has length at most
`max_chars`, except a chunk that is a single paragraph alone exceeding
`max_chars`; such an oversized paragraph is emitted whole as its own
chunk (it equals one of the section's trimmed paragraphs, so it is never
truncated, split, or packed with another paragraph), and every oversized
paragraph does appear among the chunks. -/
theorem c2_chunk_size_bound :
    (∀ (text : List Char) (maxC : Nat) (c : List Char),
      c ∈ chunk_paragraphs text maxC →
      c.length ≤ maxC ∨ (c ∈ paragraphs text ∧ maxC < c.length)) ∧
    (∀ (text : List Char) (maxC : Nat) (p : List Char),
      p ∈ paragraphs text → maxC < p.length → p ∈ chunk_paragraphs text maxC) := by
  constructor
  · intro text maxC c hc
    unfold chunk_paragraphs at hc
    rcases chunkLoop_size maxC (paragraphs text) [] 0 (paragraphs_good text)
        (by simp) rfl (fun h => absurd h (by omega)) c hc with h | ⟨hm, hl⟩
    · exact Or.inl h
    · rcases hm with hm | hm
      · simp at hm
      · exact Or.inr ⟨hm, hl⟩
  · intro text maxC p hp hlt
    exact chunkLoop_oversized_mem maxC (paragraphs text) (paragraphs_good text)
      [] 0 p hp hlt

/-- Witness for C2: a four-character single-paragraph text with
`max_chars = 2` yields that paragraph, oversized, as its own chunk. -/
theorem c2_witness :
    ("abcd".toList.length ≤ 2 ∨
      ("abcd".toList ∈ paragraphs "abcd".toList ∧ 2 < "abcd".toList.length)) ∧
    "abcd".toList ∈ chunk_paragraphs "abcd".toList 2 :=
  ⟨c2_chunk_size_bound.1 "abcd".toList 2 "abcd".toList (by decide),
    c2_chunk_size_bound.2 "abcd".toList 2 "abcd".toList (by decide) (by decide)⟩

/-! ## The query path: empty context, post-processing, non-empty answers -/

/-- Claim C3: when the joined retrieval context is empty or
whitespace-only, `query` answers `NOT_FOUND` and never calls the
generative collaborator. -/
theorem c3_empty_context_short_circuit :
    ∀ (docs : List (List Char)) (resp : Option (List Char)),
      pstrip (contextOf docs) = [] →
      queryModel docs resp = (NOT_FOUND, false) := by
  intro docs resp h
  unfold queryModel
  rw [if_pos (by rw [h]; rfl)]

/-- Witness for C3: a single whitespace-only retrieved document. -/
theorem c3_witness :
    queryModel [" ".toList] (some "Hello".toList) = (NOT_FOUND, false) :=
  c3_empty_context_short_circuit [" ".toList] (some "Hello".toList) (by decide)

/-- Claim C8: whatever the generative collaborator returns (including a
missing, empty, or whitespace-only response), the final answer is
non-empty: either the post-processed extraction or the sentinel. -/
theorem c8_answer_nonempty :
    ∀ (docs : List (List Char)) (resp : Option (List Char)),
      (queryModel docs resp).1 ≠ [] ∧
      ((queryModel docs resp).1 = NOT_FOUND ∨
        (queryModel docs resp).1 = postprocess (resp.getD [])) := by
  intro docs resp
  unfold queryModel
  by_cases hctx : (pstrip (contextOf docs)).isEmpty = true
  · rw [if_pos hctx]
    exact ⟨by decide, Or.inl rfl⟩
  · rw [if_neg hctx]
    simp only
    by_cases hbad :
        (bad_markers.any fun m =>
          decide (m <:+: pyLower (postprocess (resp.getD [])))) = true
    · rw [if_pos hbad, if_neg (by decide)]
      exact ⟨by decide, Or.inl rfl⟩
    · rw [if_neg hbad]
      by_cases hemp : (postprocess (resp.getD [])).isEmpty = true
      · rw [if_pos hemp]
        exact ⟨by decide, Or.inl rfl⟩
      · rw [if_neg hemp]
        exact ⟨by simpa using hemp, Or.inr rfl⟩

/-- Claim C9: post-processing strips whitespace, and when the stripped
result is wrapped in a matching pair of double quotes (length at least 2)
it removes exactly that one pair and re-strips; a raw `"Python"` becomes
`Python`. -/
theorem c9_postprocess_quotes :
    (∀ raw : List Char,
      (pstrip raw).head? = some '\"' → (pstrip raw).getLast? = some '\"' →
      2 ≤ (pstrip raw).length →
      postprocess raw = pstrip (((pstrip raw).drop 1).dropLast)) ∧
    (∀ raw : List Char,
      ¬((pstrip raw).head? = some '\"' ∧ (pstrip raw).getLast? = some '\"' ∧
          2 ≤ (pstrip raw).length) →
      postprocess raw = pstrip raw) ∧
    postprocess "\"Python\"".toList = "Python".toList := by
  refine ⟨?_, ?_, by decide⟩
  · intro raw h1 h2 h3
    unfold postprocess
    rw [if_pos ⟨h1, h2, h3⟩]
  · intro raw h
    unfold postprocess
    rw [if_neg h]

/-- Witness for C9: the quote-stripping clause applied to `  "ab"  `. -/
theorem c9_witness :
    postprocess "  \"ab\"  ".toList =
      pstrip (((pstrip "  \"ab\"  ".toList).drop 1).dropLast) :=
  c9_postprocess_quotes.1 "  \"ab\"  ".toList (by decide) (by decide) (by decide)

/-! ## The prompt-echo guard: substrings survive post-processing -/

theorem infix_lstrip {M l : List Char} (hM : M ≠ [])
    (hhd : ∀ c ∈ M.head?, isSpace c = false) (h : M <:+: l) : M <:+: lstrip l := by
  obtain ⟨s, t, rfl⟩ := h
  induction s with
  | nil =>
    cases M with
    | nil => exact absurd rfl hM
    | cons c M' =>
      have hc : isSpace c = false := hhd c (by simp)
      have : lstrip (([] : List Char) ++ (c :: M') ++ t) = (c :: M') ++ t := by
        unfold lstrip
        rw [List.nil_append, List.cons_append, List.dropWhile_cons, hc]
        simp
      rw [this]
      exact ⟨[], t, by simp⟩
  | cons a s' ih =>
    by_cases ha : isSpace a = true
    · have : lstrip ((a :: s') ++ M ++ t) = lstrip (s' ++ M ++ t) := by
        unfold lstrip
        rw [List.cons_append, List.cons_append, List.dropWhile_cons, if_pos ha]
      rw [this]
      exact ih
    · have : lstrip ((a :: s') ++ M ++ t) = (a :: s') ++ M ++ t := by
        apply lstrip_eq_self
        intro c hc
        simp only [List.cons_append, List.head?_cons, Option.mem_def,
          Option.some.injEq] at hc
        rw [← hc]
        exact Bool.not_eq_true _ ▸ ha
      rw [this]
      exact ⟨a :: s', t, rfl⟩

theorem infix_rstrip {M l : List Char} (hM : M ≠ [])
    (hlast : ∀ c ∈ M.getLast?, isSpace c = false) (h : M <:+: l) :
    M <:+: rstrip l := by
  have h' : M.reverse <:+: l.reverse := List.reverse_infix.mpr h
  have hhd : ∀ c ∈ M.reverse.head?, isSpace c = false := by
    rw [List.head?_reverse]; exact hlast
  have hMr : M.reverse ≠ [] := by simpa using hM
  have hinf := infix_lstrip hMr hhd h'
  have h2 : M.reverse <:+: (rstrip l).reverse := by
    unfold rstrip
    rw [List.reverse_reverse]
    exact hinf
  exact List.reverse_infix.mp h2

theorem infix_pstrip {M l : List Char} (hM : M ≠ [])
    (hhd : ∀ c ∈ M.head?, isSpace c = false)
    (hlast : ∀ c ∈ M.getLast?, isSpace c = false) (h : M <:+: l) :
    M <:+: pstrip l :=
  infix_rstrip hM hlast (infix_lstrip hM hhd h)

theorem infix_unquote {M a : List Char} (hM : M ≠ [])
    (hhd : M.head? ≠ some '\"') (hlast : M.getLast? ≠ some '\"')
    (h : M <:+: a) (ha1 : a.head? = some '\"') (ha2 : a.getLast? = some '\"') :
    M <:+: (a.drop 1).dropLast := by
  obtain ⟨s, t, rfl⟩ := h
  have hs : s ≠ [] := by
    rintro rfl
    rw [List.nil_append, List.head?_append_of_ne_nil _ hM] at ha1
    exact hhd ha1
  have ht : t ≠ [] := by
    rintro rfl
    rw [List.append_nil, List.getLast?_append_of_ne_nil s hM] at ha2
    exact hlast ha2
  cases s with
  | nil => exact absurd rfl hs
  | cons x s' =>
    have hdrop : ((x :: s') ++ M ++ t).drop 1 = (s' ++ M) ++ t := by simp
    rw [hdrop, List.dropLast_append_of_ne_nil _ ht]
    exact ⟨s', t.dropLast, rfl⟩

theorem queryModel_guard_hit (docs : List (List Char)) (resp : Option (List Char))
    (m : List Char) (hm : m ∈ bad_markers)
    (hinf : m <:+: pyLower (postprocess (resp.getD []))) :
    (queryModel docs resp).1 = NOT_FOUND := by
  unfold queryModel
  by_cases hctx : (pstrip (contextOf docs)).isEmpty = true
  · rw [if_pos hctx]
  · rw [if_neg hctx]
    simp only
    have hany : (bad_markers.any fun x =>
        decide (x <:+: pyLower (postprocess (resp.getD [])))) = true := by
      rw [List.any_eq_true]
      exact ⟨m, hm, decide_eq_true hinf⟩
    rw [if_pos hany, if_neg (by decide)]

/-- Claim C4: if the post-processed generative output, lower-cased,
contains any of the guard markers, `query` answers `NOT_FOUND`; in
particular any raw output containing the literal substring `Context:`
yields `NOT_FOUND`. -/
theorem c4_prompt_echo_guard :
    (∀ (docs : List (List Char)) (resp : Option (List Char)) (m : List Char),
      m ∈ bad_markers → m <:+: pyLower (postprocess (resp.getD [])) →
      (queryModel docs resp).1 = NOT_FOUND) ∧
    (∀ (docs : List (List Char)) (raw : List Char),
      "Context:".toList <:+: raw →
      (queryModel docs (some raw)).1 = NOT_FOUND) := by
  constructor
  · exact queryModel_guard_hit
  · intro docs raw h
    have hM : ("Context:".toList : List Char) ≠ [] := by decide
    have hhd : ∀ c ∈ ("Context:".toList : List Char).head?, isSpace c = false := by decide
    have hlast : ∀ c ∈ ("Context:".toList : List Char).getLast?, isSpace c = false := by
      decide
    have hstr : "Context:".toList <:+: pstrip raw := infix_pstrip hM hhd hlast h
    have hpost : "Context:".toList <:+: postprocess raw := by
      unfold postprocess
      by_cases hq : (pstrip raw).head? = some '\"' ∧
          (pstrip raw).getLast? = some '\"' ∧ 2 ≤ (pstrip raw).length
      · rw [if_pos hq]
        exact infix_pstrip hM hhd hlast
          (infix_unquote hM (by decide) (by decide) hstr hq.1 hq.2.1)
      · rw [if_neg hq]
        exact hstr
    have hlow : "context:".toList <:+: pyLower (postprocess raw) := by
      have := List.IsInfix.map Char.toLower hpost
      have heq : List.map Char.toLower "Context:".toList = "context:".toList := by decide
      rw [heq] at this
      exact this
    exact queryModel_guard_hit docs (some raw) "context:".toList (by decide)
      (by simpa using hlow)

/-- Witness for C4: a raw response that echoes `Context:` is rejected. -/
theorem c4_witness :
    (queryModel ["Python is a language".toList]
      (some "Context: Python".toList)).1 = NOT_FOUND :=
  c4_prompt_echo_guard.2 ["Python is a language".toList] "Context: Python".toList
    (by decide)

/-! ## Section splitting -/

theorem rstrip_append (a x : List Char) :
    rstrip (a ++ x) = if (rstrip x).isEmpty then rstrip a else a ++ rstrip x := by
  unfold rstrip
  rw [List.reverse_append, List.dropWhile_append]
  by_cases h : (x.reverse.dropWhile isSpace).isEmpty = true
  · rw [if_pos h, if_pos (by simpa using h)]
  · rw [if_neg h, if_neg (by simpa using h), List.reverse_append, List.reverse_reverse]

/-- The body of a flushed section starts with the (stripped, non-empty)
string placed at the head of its buffer: the joined and re-stripped buffer
is either that string alone or that string followed by a newline. -/
theorem pstrip_joinNL_first {n : List Char} (hn : n ≠ []) (hns : pstrip n = n)
    (ls : List (List Char)) :
    pstrip (joinNL (n :: ls)) = n ∨ ∃ t, pstrip (joinNL (n :: ls)) = n ++ '\n' :: t := by
  have hhead : ∀ c ∈ n.head?, isSpace c = false := by
    intro c hc; exact head?_pstrip n c (by rw [hns]; exact hc)
  have hl : lstrip n = n := lstrip_eq_self hhead
  have hr : rstrip n = n := by
    have h2 : rstrip (lstrip n) = n := hns
    rwa [hl] at h2
  cases ls with
  | nil =>
    left
    exact hns
  | cons m ms =>
    have hjoin : joinNL (n :: m :: ms) = n ++ ('\n' :: joinNL (m :: ms)) := by
      have h1 := joinSep_cons "\n".toList n (by simp : (m :: ms : List (List Char)) ≠ [])
      rw [List.append_assoc] at h1
      exact h1
    rw [hjoin]
    have hlf : lstrip (n ++ ('\n' :: joinNL (m :: ms)))
        = n ++ ('\n' :: joinNL (m :: ms)) := by
      apply lstrip_eq_self
      intro c hc
      rw [List.head?_append_of_ne_nil _ hn] at hc
      exact hhead c hc
    unfold pstrip
    rw [hlf, rstrip_append]
    by_cases he : (rstrip ('\n' :: joinNL (m :: ms))).isEmpty = true
    · rw [if_pos he]; left; exact hr
    · rw [if_neg he]
      right
      obtain ⟨u, hu⟩ := rstrip_prefix ('\n' :: joinNL (m :: ms))
      rcases e : rstrip ('\n' :: joinNL (m :: ms)) with _ | ⟨c, cs⟩
      · rw [e] at he; simp at he
      · rw [e] at hu
        have h2 : c :: (cs ++ u) = '\n' :: joinNL (m :: ms) := by simpa using hu
        have hc : c = '\n' := (List.cons.injEq .. |>.mp h2).1
        exact ⟨cs, by rw [hc]⟩

theorem is_section_header_pstrip (line : List Char) :
    is_section_header (pstrip line) = is_section_header line := by
  unfold is_section_header
  rw [pstrip_idem]

theorem header_pstrip_ne_nil {line : List Char}
    (h : is_section_header line = true) : pstrip line ≠ [] := by
  unfold is_section_header at h
  rw [Bool.and_eq_true, Bool.not_eq_true'] at h
  exact List.isEmpty_eq_false.mp h.1

theorem splitSecLoop_nil (cur : Option (List Char)) (buf : List (List Char)) :
    splitSecLoop [] cur buf = flushSec cur buf :=
  rfl

theorem splitSecLoop_cons_none (line : List Char) (rest buf : List (List Char)) :
    splitSecLoop (line :: rest) none buf =
      if is_section_header line then
        flushSec none buf ++ splitSecLoop rest (some (pstrip line)) [pstrip line]
      else splitSecLoop rest (some "UNKNOWN".toList) [line] :=
  rfl

theorem splitSecLoop_cons_some (line : List Char) (rest buf : List (List Char))
    (c : List Char) :
    splitSecLoop (line :: rest) (some c) buf =
      if is_section_header line then
        flushSec (some c) buf ++ splitSecLoop rest (some (pstrip line)) [pstrip line]
      else splitSecLoop rest (some c) (buf ++ [line]) :=
  rfl

theorem splitSecLoop_nonheader_accum :
    ∀ (pre rest : List (List Char)) (cur : List Char) (buf : List (List Char)),
      (∀ l ∈ pre, is_section_header l = false) →
      splitSecLoop (pre ++ rest) (some cur) buf =
        splitSecLoop rest (some cur) (buf ++ pre) := by
  intro pre
  induction pre with
  | nil => intro rest cur buf _; simp
  | cons l pre' ih =>
    intro rest cur buf hall
    have hl : is_section_header l = false := hall l (by simp)
    rw [List.cons_append, splitSecLoop_cons_some, if_neg (by simp [hl]),
      ih rest cur (buf ++ [l]) (fun x hx => hall x (List.mem_cons_of_mem l hx)),
      List.append_assoc, List.singleton_append]

theorem split_prefix_unknown (pre : List (List Char)) (h : List Char)
    (rest : List (List Char)) (hne : pre ≠ [])
    (hall : ∀ l ∈ pre, is_section_header l = false)
    (hh : is_section_header h = true) :
    splitSecLoop (pre ++ h :: rest) none [] =
      ("UNKNOWN".toList, pstrip (joinNL pre)) ::
        splitSecLoop rest (some (pstrip h)) [pstrip h] := by
  cases pre with
  | nil => exact absurd rfl hne
  | cons l0 pre' =>
    have hl0 : is_section_header l0 = false := hall l0 (by simp)
    rw [List.cons_append, splitSecLoop_cons_none, if_neg (by simp [hl0]),
      splitSecLoop_nonheader_accum pre' (h :: rest) _ [l0]
        (fun x hx => hall x (List.mem_cons_of_mem l0 hx)),
      List.singleton_append, splitSecLoop_cons_some, if_pos hh]
    rfl

theorem split_all_unknown (lines : List (List Char)) (hne : lines ≠ [])
    (hall : ∀ l ∈ lines, is_section_header l = false) :
    splitSecLoop lines none [] = [("UNKNOWN".toList, pstrip (joinNL lines))] := by
  cases lines with
  | nil => exact absurd rfl hne
  | cons l0 rest =>
    have hl0 : is_section_header l0 = false := hall l0 (by simp)
    have hacc := splitSecLoop_nonheader_accum rest [] "UNKNOWN".toList [l0]
      (fun x hx => hall x (List.mem_cons_of_mem l0 hx))
    rw [List.append_nil] at hacc
    rw [splitSecLoop_cons_none, if_neg (by simp [hl0]), hacc,
      List.singleton_append, splitSecLoop_nil]
    rfl

theorem flushSec_shape {cur : Option (List Char)} {buf : List (List Char)}
    (hinv : ∀ c, cur = some c → c ≠ "UNKNOWN".toList →
      c ≠ [] ∧ pstrip c = c ∧ is_section_header c = true ∧ ∃ ls, buf = c :: ls) :
    ∀ n b, (n, b) ∈ flushSec cur buf →
      n = "UNKNOWN".toList ∨
        (is_section_header n = true ∧ (b = n ∨ ∃ t, b = n ++ '\n' :: t)) := by
  intro n b hmem
  cases cur with
  | none => simp [flushSec] at hmem
  | some c =>
    simp only [flushSec] at hmem
    by_cases hbuf : buf.isEmpty = true
    · rw [if_pos hbuf] at hmem; simp at hmem
    · rw [if_neg hbuf, List.mem_singleton] at hmem
      have hn : n = c := (Prod.mk.injEq .. |>.mp hmem).1
      have hb : b = pstrip (joinNL buf) := (Prod.mk.injEq .. |>.mp hmem).2
      by_cases hcu : c = "UNKNOWN".toList
      · left; rw [hn, hcu]
      · obtain ⟨hc1, hc2, hc3, ls, hbeq⟩ := hinv c rfl hcu
        right
        subst hn
        refine ⟨hc3, ?_⟩
        rw [hb, hbeq]
        exact pstrip_joinNL_first hc1 hc2 ls

theorem header_inv (line : List Char) (hline : is_section_header line = true) :
    ∀ c, some (pstrip line) = some c → c ≠ "UNKNOWN".toList →
      c ≠ [] ∧ pstrip c = c ∧ is_section_header c = true ∧
        ∃ ls, [pstrip line] = c :: ls := by
  intro c hc _
  rw [Option.some.injEq] at hc
  subst hc
  exact ⟨header_pstrip_ne_nil hline, pstrip_idem line,
    by rw [is_section_header_pstrip]; exact hline, [], rfl⟩

theorem splitSecLoop_shape :
    ∀ (lines : List (List Char)) (cur : Option (List Char)) (buf : List (List Char)),
      (∀ c, cur = some c → c ≠ "UNKNOWN".toList →
        c ≠ [] ∧ pstrip c = c ∧ is_section_header c = true ∧ ∃ ls, buf = c :: ls) →
      ∀ n b, (n, b) ∈ splitSecLoop lines cur buf →
        n = "UNKNOWN".toList ∨
          (is_section_header n = true ∧ (b = n ∨ ∃ t, b = n ++ '\n' :: t)) := by
  intro lines
  induction lines with
  | nil =>
    intro cur buf hinv n b hmem
    exact flushSec_shape hinv n b (by rwa [splitSecLoop_nil] at hmem)
  | cons line rest ih =>
    intro cur buf hinv n b hmem
    by_cases hline : is_section_header line = true
    · cases cur with
      | none =>
        rw [splitSecLoop_cons_none, if_pos hline] at hmem
        rcases List.mem_append.mp hmem with hm | hm
        · simp [flushSec] at hm
        · exact ih (some (pstrip line)) [pstrip line] (header_inv line hline) n b hm
      | some c =>
        rw [splitSecLoop_cons_some, if_pos hline] at hmem
        rcases List.mem_append.mp hmem with hm | hm
        · exact flushSec_shape hinv n b hm
        · exact ih (some (pstrip line)) [pstrip line] (header_inv line hline) n b hm
    · have hline' : is_section_header line = false := by simpa using hline
      cases cur with
      | none =>
        rw [splitSecLoop_cons_none, if_neg (by simp [hline'])] at hmem
        refine ih _ _ ?_ n b hmem
        intro c hc hcu
        rw [Option.some.injEq] at hc
        exact absurd hc.symm hcu
      | some c0 =>
        rw [splitSecLoop_cons_some, if_neg (by simp [hline'])] at hmem
        refine ih _ _ ?_ n b hmem
        intro c hc hcu
        rw [Option.some.injEq] at hc
        subst hc
        obtain ⟨h1, h2, h3, ls, hbeq⟩ := hinv c0 rfl hcu
        exact ⟨h1, h2, h3, ls ++ [line], by rw [hbeq, List.cons_append]⟩

/-- Claim C5: a line is a section header iff, after stripping, it is
non-empty, upper-case in Python's `isupper` sense, and at least 3
characters long; all non-header lines before the first header (or in a
document with no header at all) are accumulated into the pseudo-section
`UNKNOWN`; and every section emitted under a header name keeps that
(stripped) header as the first line of its body. -/
theorem c5_section_headers :
    (∀ line : List Char,
      is_section_header line = true ↔
        (pstrip line ≠ [] ∧ pyIsUpper (pstrip line) = true ∧
          3 ≤ (pstrip line).length)) ∧
    (∀ (pre : List (List Char)) (h : List Char) (rest : List (List Char)),
      pre ≠ [] → (∀ l ∈ pre, is_section_header l = false) →
      is_section_header h = true →
      splitSecLoop (pre ++ h :: rest) none [] =
        ("UNKNOWN".toList, pstrip (joinNL pre)) ::
          splitSecLoop rest (some (pstrip h)) [pstrip h]) ∧
    (∀ lines : List (List Char), lines ≠ [] →
      (∀ l ∈ lines, is_section_header l = false) →
      splitSecLoop lines none [] = [("UNKNOWN".toList, pstrip (joinNL lines))]) ∧
    (∀ (text : List Char) (n b : List Char), (n, b) ∈ split_sections text →
      n = "UNKNOWN".toList ∨
        (is_section_header n = true ∧ (b = n ∨ ∃ t, b = n ++ '\n' :: t))) := by
  refine ⟨?_, split_prefix_unknown, split_all_unknown, ?_⟩
  · intro line
    unfold is_section_header
    simp only [Bool.and_eq_true, Bool.not_eq_true', List.isEmpty_eq_false,
      decide_eq_true_eq]
  · intro text n b hmem
    exact splitSecLoop_shape _ none [] (fun c hc _ => Option.noConfusion hc)
      n b hmem

/-- Witness for C5: the header clause on a two-line headed document. -/
theorem c5_witness :
    ("TITLE".toList : List Char) = "UNKNOWN".toList ∨
      (is_section_header "TITLE".toList = true ∧
        ("TITLE\nbody".toList = "TITLE".toList ∨
          ∃ t, ("TITLE\nbody".toList : List Char) = "TITLE".toList ++ '\n' :: t)) :=
  c5_section_headers.2.2.2 "TITLE\nbody".toList "TITLE".toList
    "TITLE\nbody".toList (by decide)

/-! ## The indexing run: embedding pass, single add, clear-in-place -/

theorem embedAll_nil (o : Oracle) : embedAll o [] = (some [], []) := rfl

theorem embedAll_cons (o : Oracle) (c : List Char) (cs : List (List Char)) :
    embedAll o (c :: cs) =
      match embed_text o c with
      | none => (none, [Ev.embedCall c])
      | some v =>
        ((embedAll o cs).1.map (fun vs => v :: vs),
          Ev.embedCall c :: (embedAll o cs).2) :=
  rfl

theorem embedAll_events (o : Oracle) :
    ∀ cs : List (List Char), ∀ e ∈ (embedAll o cs).2, ∃ c, e = Ev.embedCall c := by
  intro cs
  induction cs with
  | nil => intro e he; simp [embedAll_nil] at he
  | cons c cs ih =>
    intro e he
    rw [embedAll_cons] at he
    cases h : embed_text o c with
    | none =>
      rw [h] at he
      simp only [List.mem_singleton] at he
      exact ⟨c, he⟩
    | some v =>
      rw [h] at he
      simp only [List.mem_cons] at he
      rcases he with he | he
      · exact ⟨c, he⟩
      · exact ih e he

theorem embedAll_success (o : Oracle) :
    ∀ cs : List (List Char), (∀ c ∈ cs, (embed_text o c).isSome = true) →
      ∃ vs, embedAll o cs = (some vs, cs.map Ev.embedCall) := by
  intro cs
  induction cs with
  | nil => intro _; exact ⟨[], rfl⟩
  | cons c cs ih =>
    intro hall
    obtain ⟨v, hv⟩ := Option.isSome_iff_exists.mp (hall c (by simp))
    obtain ⟨vs, hvs⟩ := ih (fun x hx => hall x (List.mem_cons_of_mem c hx))
    refine ⟨v :: vs, ?_⟩
    rw [embedAll_cons, hv, hvs]
    rfl

theorem embedAll_failure (o : Oracle) :
    ∀ cs : List (List Char), (∃ c ∈ cs, embed_text o c = none) →
      (embedAll o cs).1 = none := by
  intro cs
  induction cs with
  | nil => intro h; simp at h
  | cons c cs ih =>
    intro h
    rw [embedAll_cons]
    cases hc : embed_text o c with
    | none => rfl
    | some v =>
      obtain ⟨x, hx, hxn⟩ := h
      rcases List.mem_cons.mp hx with rfl | hx'
      · rw [hc] at hxn; exact absurd hxn (by simp)
      · simp only
        rw [ih ⟨x, hx', hxn⟩]
        rfl

theorem clear_collection_events (o : Oracle) (st : List (List Char)) :
    ∀ e ∈ (clear_collection o st).2,
      e = Ev.collGet ∨ ∃ l, e = Ev.collDeleteIds l := by
  intro e he
  unfold clear_collection at he
  by_cases hg : o.getOk = true
  · rw [if_pos hg] at he
    by_cases hst : st.isEmpty = true
    · rw [if_pos hst] at he
      simp only [List.mem_singleton] at he
      exact Or.inl he
    · rw [if_neg hst] at he
      by_cases hd : o.deleteOk = true
      · rw [if_pos hd] at he
        simp only [List.mem_cons, List.mem_singleton] at he
        rcases he with he | he | he
        · exact Or.inl he
        · exact Or.inr ⟨st, he⟩
        · simp at he
      · rw [if_neg hd] at he
        simp only [List.mem_cons, List.mem_singleton] at he
        rcases he with he | he | he
        · exact Or.inl he
        · exact Or.inr ⟨st, he⟩
        · simp at he
  · rw [if_neg hg] at he
    simp only [List.mem_singleton] at he
    exact Or.inl he

theorem clear_collection_state_ok (o : Oracle) (st : List (List Char))
    (hg : o.getOk = true) (hd : o.deleteOk = true) :
    (clear_collection o st).1 = [] := by
  unfold clear_collection
  rw [if_pos hg]
  by_cases hst : st.isEmpty = true
  · rw [if_pos hst]
    exact List.isEmpty_iff.mp hst
  · rw [if_neg hst, if_pos hd]

theorem mainRun_some (o : Oracle) (maxC : Nat) (raw : List Char)
    (st : List (List Char)) :
    mainRun o maxC (some raw) st =
      match (embedAll o (chunksOf maxC raw)).1 with
      | none =>
        (Ev.getOrCreateCollection ::
            ((clear_collection o st).2 ++ (embedAll o (chunksOf maxC raw)).2),
          MainResult.embedFailed, (clear_collection o st).1)
      | some _ =>
        (Ev.getOrCreateCollection ::
            ((clear_collection o st).2 ++ (embedAll o (chunksOf maxC raw)).2
              ++ [Ev.addCall ((List.range (chunksOf maxC raw).length).map mkId)
                  (chunksOf maxC raw)]),
          MainResult.ok (chunksOf maxC raw).length,
          (clear_collection o st).1
            ++ (List.range (chunksOf maxC raw).length).map mkId) :=
  rfl

/-- Claim C6: when some chunk gets no embedding vector, `main` raises
(result `embedFailed`), issues no `add` call at all, and writes nothing
(the stored state stays exactly as the clearing step left it); when every
chunk embeds, the trace is the clearing calls, then one `embedCall` per
chunk in order, then the single `addCall` carrying all ids and chunks. -/
theorem c6_embed_failure_aborts :
    ∀ (o : Oracle) (maxC : Nat) (raw : List Char) (st : List (List Char)),
      ((∃ c ∈ chunksOf maxC raw, embed_text o c = none) →
        (mainRun o maxC (some raw) st).2.1 = MainResult.embedFailed ∧
        (∀ ids docs, Ev.addCall ids docs ∉ (mainRun o maxC (some raw) st).1) ∧
        (mainRun o maxC (some raw) st).2.2 = (clear_collection o st).1) ∧
      ((∀ c ∈ chunksOf maxC raw, (embed_text o c).isSome = true) →
        (mainRun o maxC (some raw) st).1 =
          Ev.getOrCreateCollection :: ((clear_collection o st).2
            ++ (chunksOf maxC raw).map Ev.embedCall
            ++ [Ev.addCall ((List.range (chunksOf maxC raw).length).map mkId)
                (chunksOf maxC raw)]) ∧
        (mainRun o maxC (some raw) st).2.1 =
          MainResult.ok (chunksOf maxC raw).length) := by
  intro o maxC raw st
  constructor
  · intro hfail
    have hnone : (embedAll o (chunksOf maxC raw)).1 = none :=
      embedAll_failure o _ hfail
    rw [mainRun_some, hnone]
    refine ⟨rfl, ?_, rfl⟩
    intro ids docs hmem
    simp only [List.mem_cons, List.mem_append] at hmem
    rcases hmem with hmem | hmem | hmem
    · exact Ev.noConfusion hmem
    · rcases clear_collection_events o st _ hmem with h | ⟨l, h⟩
      · exact Ev.noConfusion h
      · exact Ev.noConfusion h
    · obtain ⟨c, hc⟩ := embedAll_events o _ _ hmem
      exact Ev.noConfusion hc
  · intro hok
    obtain ⟨vs, hvs⟩ := embedAll_success o _ hok
    rw [mainRun_some, hvs]
    exact ⟨rfl, rfl⟩

/-- Witness for C6: an all-failing embedder on a one-chunk document. -/
theorem c6_witness :
    (mainRun ⟨true, true, fun _ => none⟩ 900 (some "AAA\nhi".toList) []).2.1 =
        MainResult.embedFailed ∧
      (∀ ids docs, Ev.addCall ids docs ∉
        (mainRun ⟨true, true, fun _ => none⟩ 900 (some "AAA\nhi".toList) []).1) ∧
      (mainRun ⟨true, true, fun _ => none⟩ 900 (some "AAA\nhi".toList) []).2.2 =
        (clear_collection ⟨true, true, fun _ => none⟩ []).1 :=
  (c6_embed_failure_aborts ⟨true, true, fun _ => none⟩ 900 "AAA\nhi".toList []).1
    (by decide)

/-- Counterexample for C7: on an empty (but existing) source document and
a store accepting the call, `main` completes with result `ok 0` — one
clearing `get`, then an `addCall` with zero ids and zero chunks — instead
of raising any error. -/
theorem c7_counterexample :
    (mainRun ⟨true, true, fun _ => some [1]⟩ 900 (some []) []).2.1 =
        MainResult.ok 0 ∧
      (mainRun ⟨true, true, fun _ => some [1]⟩ 900 (some []) []).1 =
        [Ev.getOrCreateCollection, Ev.collGet, Ev.addCall [] []] := by
  constructor
  · rfl
  · rfl

/-- Claim C7 as amended: only a missing source file aborts indexing
(`FileNotFoundError`); an empty existing document is not rejected — the
run completes normally with zero chunks written. -/
theorem c7_empty_document_not_rejected :
    ∀ (o : Oracle) (maxC : Nat) (st : List (List Char)),
      (mainRun o maxC none st).2.1 = MainResult.fileMissing ∧
      (mainRun o maxC (some []) st).2.1 = MainResult.ok 0 := by
  intro o maxC st
  exact ⟨rfl, rfl⟩

/-- Claim C10: the clearing step (a `get`, then possibly a delete-by-ids)
happens before every embedding call; the collection itself is never
deleted; the run's outcome is independent of whether `get`/`delete`
succeed (clearing never raises out of its `try/except`); and when
clearing succeeded and an embedding then fails, the index is left
empty. -/
theorem c10_cleared_before_embedding :
    ∀ (o : Oracle) (maxC : Nat) (raw : List Char) (file : Option (List Char))
      (st : List (List Char)),
      (∃ evE, (mainRun o maxC (some raw) st).1 =
          Ev.getOrCreateCollection :: ((clear_collection o st).2 ++ evE) ∧
        (∀ e ∈ (clear_collection o st).2,
          e = Ev.collGet ∨ ∃ l, e = Ev.collDeleteIds l) ∧
        (∀ e ∈ evE, (∃ c, e = Ev.embedCall c) ∨ ∃ i d, e = Ev.addCall i d)) ∧
      Ev.deleteCollection ∉ (mainRun o maxC file st).1 ∧
      (mainRun o maxC file st).2.1 =
        (mainRun ⟨true, true, o.embed⟩ maxC file st).2.1 ∧
      (o.getOk = true → o.deleteOk = true →
        (∃ c ∈ chunksOf maxC raw, embed_text o c = none) →
        (mainRun o maxC (some raw) st).2.2 = []) := by
  intro o maxC raw file st
  have hembs : embedAll ⟨true, true, o.embed⟩ = embedAll o := by
    funext cs
    induction cs with
    | nil => rfl
    | cons c cs ih => rw [embedAll_cons, embedAll_cons, ih]; rfl
  refine ⟨?_, ?_, ?_, ?_⟩
  · rw [mainRun_some]
    cases he : (embedAll o (chunksOf maxC raw)).1 with
    | none =>
      refine ⟨(embedAll o (chunksOf maxC raw)).2, rfl,
        clear_collection_events o st, ?_⟩
      intro e hee
      exact Or.inl (embedAll_events o _ e hee)
    | some vs =>
      refine ⟨(embedAll o (chunksOf maxC raw)).2
          ++ [Ev.addCall ((List.range (chunksOf maxC raw).length).map mkId)
              (chunksOf maxC raw)],
        by rw [List.append_assoc], clear_collection_events o st, ?_⟩
      intro e hee
      rcases List.mem_append.mp hee with hee | hee
      · exact Or.inl (embedAll_events o _ e hee)
      · rw [List.mem_singleton] at hee
        exact Or.inr ⟨_, _, hee⟩
  · cases file with
    | none => simp [mainRun]
    | some raw' =>
      intro hmem
      rw [mainRun_some] at hmem
      cases he : (embedAll o (chunksOf maxC raw')).1 with
      | none =>
        rw [he] at hmem
        rcases List.mem_cons.mp hmem with h | h
        · exact Ev.noConfusion h
        · rcases List.mem_append.mp h with h | h
          · rcases clear_collection_events o st _ h with h2 | ⟨l, h2⟩
            · exact Ev.noConfusion h2
            · exact Ev.noConfusion h2
          · obtain ⟨c, hc⟩ := embedAll_events o _ _ h
            exact Ev.noConfusion hc
      | some vs =>
        rw [he] at hmem
        rcases List.mem_cons.mp hmem with h | h
        · exact Ev.noConfusion h
        · rcases List.mem_append.mp h with h | h
          · rcases List.mem_append.mp h with h | h
            · rcases clear_collection_events o st _ h with h2 | ⟨l, h2⟩
              · exact Ev.noConfusion h2
              · exact Ev.noConfusion h2
            · obtain ⟨c, hc⟩ := embedAll_events o _ _ h
              exact Ev.noConfusion hc
          · rw [List.mem_singleton] at h
            exact Ev.noConfusion h
  · cases file with
    | none => rfl
    | some raw' =>
      rw [mainRun_some, mainRun_some, hembs]
      cases he : (embedAll o (chunksOf maxC raw')).1 with
      | none => rfl
      | some vs => rfl
  · intro hg hd hfail
    have hnone : (embedAll o (chunksOf maxC raw)).1 = none :=
      embedAll_failure o _ hfail
    rw [mainRun_some, hnone]
    exact clear_collection_state_ok o st hg hd

/-- Witness for C10: a populated collection, a succeeding clear, and a
failing embedder leave the index empty. -/
theorem c10_witness :
    (mainRun ⟨true, true, fun _ => none⟩ 900 (some "AAA\nhi".toList)
      ["resume-0000".toList]).2.2 = [] :=
  (c10_cleared_before_embedding ⟨true, true, fun _ => none⟩ 900
      "AAA\nhi".toList (some "AAA\nhi".toList) ["resume-0000".toList]).2.2.2
    rfl rfl (by decide)

end RagApi
